import Mathlib

/-!
Verification of the `encrypt` package (file `encrypt/encrypt_func.go`).

The Go code builds an AES-GCM service (`NewService`), exposes
`Encrypt`/`Decrypt` over base64 text and `EncryptBytes`/`DecryptBytes` over
raw bytes, and reflection-driven record transforms
`EncryptStruct`/`DecryptStruct` (tag `encrypt:"true"`) and
`EncryptFields`/`DecryptFields` (by field name).

Embedding conventions:
* a Go byte is a `Nat` together with the well-formedness predicate `Bytes`
  (every element `< 256`); Go strings are byte lists;
* the system CSPRNG `rand.Reader` is an explicit byte tape threaded through
  every encrypting operation; `io.ReadFull` takes `nonceSize` bytes from the
  tape and fails (Go: `ErrEncryptionFailed`) when the tape is too short;
* the AES-GCM engine produced by `cipher.NewGCM` is Go standard-library
  code, not part of this repository; it is embedded as an abstract `AEAD`
  structure carrying exactly the `cipher.AEAD` interface contract the
  repository code relies on (`Open` inverts `Seal`, outputs are bytes,
  the nonce size is positive);
* `encoding/base64` standard encoding is embedded concretely
  (`b64encode`/`b64decode`); newline-skipping of Go's decoder is omitted,
  the strict group/padding structure is kept;
* reflection values are the inductive `GoVal`; a struct field carries its
  name, the result of `Tag.Get "encrypt"` (`""` when the tag is absent),
  its `CanSet` status and its value.
-/

namespace AsteroGo

/-- The error values of the `encrypt` package, plus `keySizeError n`
embedding `aes.KeySizeError(n)` returned by `aes.NewCipher` for an invalid
key length (a distinct error value from the package's `ErrInvalidKeyLength`). -/
inductive GoErr where
  | missingKey
  | invalidKeyLength
  | encryptionFailed
  | decryptionFailed
  | invalidData
  | keySizeError (n : Nat)
deriving DecidableEq, Repr

/-- A Go `(T, error)` return: either a value or an error. -/
inductive Res (α : Type) where
  | ok (a : α)
  | err (e : GoErr)
deriving DecidableEq, Repr

/-- Well-formed byte list: every element is an actual byte value. -/
abbrev Bytes (l : List Nat) : Prop := ∀ b ∈ l, b < 256

/-- Index `v < 64` to the standard base64 alphabet byte
(`A-Z`, `a-z`, `0-9`, `+`, `/`). -/
def b64CharOf (v : Nat) : Nat :=
  if v < 26 then 65 + v
  else if v < 52 then 97 + (v - 26)
  else if v < 62 then 48 + (v - 52)
  else if v = 62 then 43
  else 47

/-- Inverse alphabet lookup: `some` of the 6-bit value for an alphabet
byte, `none` for any other byte (including the padding byte 61, `=`). -/
def b64ValOf (c : Nat) : Option Nat :=
  if 65 ≤ c ∧ c ≤ 90 then some (c - 65)
  else if 97 ≤ c ∧ c ≤ 122 then some (26 + (c - 97))
  else if 48 ≤ c ∧ c ≤ 57 then some (52 + (c - 48))
  else if c = 43 then some 62
  else if c = 47 then some 63
  else none

/-- `base64.StdEncoding.EncodeToString`: three input bytes become four
alphabet bytes; a final group of one or two bytes is padded with `=` (61). -/
def b64encode : List Nat → List Nat
  | [] => []
  | [a] => [b64CharOf (a / 4), b64CharOf (a % 4 * 16), 61, 61]
  | [a, b] => [b64CharOf (a / 4), b64CharOf (a % 4 * 16 + b / 16),
               b64CharOf (b % 16 * 4), 61]
  | a :: b :: c :: rest =>
      b64CharOf (a / 4) :: b64CharOf (a % 4 * 16 + b / 16) ::
      b64CharOf (b % 16 * 4 + c / 64) :: b64CharOf (c % 64) :: b64encode rest

/-- `base64.StdEncoding.DecodeString`: input must be whole groups of four;
padding only in the last group; non-alphabet bytes are rejected.
(Go's decoder additionally skips CR and LF bytes; that detail is not
modelled.) -/
def b64decode : List Nat → Option (List Nat)
  | [] => some []
  | c1 :: c2 :: c3 :: c4 :: rest =>
    match b64ValOf c1, b64ValOf c2 with
    | some v1, some v2 =>
      if c3 = 61 then
        if c4 = 61 ∧ rest = [] then some [v1 * 4 + v2 / 16] else none
      else
        match b64ValOf c3 with
        | some v3 =>
          if c4 = 61 then
            if rest = [] then some [v1 * 4 + v2 / 16, v2 % 16 * 16 + v3 / 4]
            else none
          else
            match b64ValOf c4 with
            | some v4 =>
              match b64decode rest with
              | some tl =>
                  some ((v1 * 4 + v2 / 16) :: (v2 % 16 * 16 + v3 / 4) ::
                        (v3 % 4 * 64 + v4) :: tl)
              | none => none
            | none => none
        | none => none
    | _, _ => none
  | _ => none

/-- The `cipher.AEAD` engine obtained from `cipher.NewGCM(aes.NewCipher key)`.
The repository uses the engine only through this interface; the fields state
the contract Go's AEAD implementations provide: `Open'` inverts `Seal`
(no associated data is ever passed), sealed output is made of bytes, and
the nonce size is positive (12 for GCM). -/
structure AEAD where
  nonceSize : Nat
  Seal : List Nat → List Nat → List Nat
  Open' : List Nat → List Nat → Option (List Nat)
  nonceSize_pos : 0 < nonceSize
  open_seal : ∀ nonce pt, Open' nonce (Seal nonce pt) = some pt
  seal_bytes : ∀ nonce pt, Bytes pt → Bytes (Seal nonce pt)

/-- `type Service struct { gcm cipher.AEAD }` -/
structure Service where
  gcm : AEAD

/-- `NewService(key []byte) (*Service, error)`. `aes.NewCipher` returns
`aes.KeySizeError(len(key))` unless the length is 16, 24 or 32;
`cipher.NewGCM` never fails on an AES block cipher (block size 16).
`mkGCM` abstracts the construction of the AES-GCM engine from the key. -/
def NewService (mkGCM : List Nat → AEAD) (key : List Nat) : Res Service :=
  if key.length = 16 ∨ key.length = 24 ∨ key.length = 32 then
    Res.ok ⟨mkGCM key⟩
  else
    Res.err (GoErr.keySizeError key.length)

/-- `Encrypt(plaintext string) (string, error)`: empty pass-through, read a
nonce from the tape (`rand.Reader`), `gcm.Seal(nonce, nonce, plaintext, nil)`
prepends the nonce, base64-encode.  Returns the encoded text and the unused
rest of the tape. -/
def Service.Encrypt (s : Service) (tape plaintext : List Nat) :
    Res (List Nat × List Nat) :=
  if plaintext = [] then Res.ok ([], tape)
  else if tape.length < s.gcm.nonceSize then Res.err GoErr.encryptionFailed
  else
    let nonce := tape.take s.gcm.nonceSize
    Res.ok (b64encode (nonce ++ s.gcm.Seal nonce plaintext),
            tape.drop s.gcm.nonceSize)

/-- `Decrypt(ciphertext string) (string, error)`: empty pass-through,
base64-decode (failure: `ErrInvalidData`), length check against the nonce
size (failure: `ErrInvalidData`), split and `gcm.Open`
(failure: `ErrDecryptionFailed`). -/
def Service.Decrypt (s : Service) (ciphertext : List Nat) : Res (List Nat) :=
  if ciphertext = [] then Res.ok []
  else
    match b64decode ciphertext with
    | none => Res.err GoErr.invalidData
    | some data =>
      if data.length < s.gcm.nonceSize then Res.err GoErr.invalidData
      else
        match s.gcm.Open' (data.take s.gcm.nonceSize)
              (data.drop s.gcm.nonceSize) with
        | none => Res.err GoErr.decryptionFailed
        | some plaintext => Res.ok plaintext

/-- `EncryptBytes(plaintext []byte) ([]byte, error)`: like `Encrypt`
without the base64 step. -/
def Service.EncryptBytes (s : Service) (tape plaintext : List Nat) :
    Res (List Nat × List Nat) :=
  if plaintext = [] then Res.ok ([], tape)
  else if tape.length < s.gcm.nonceSize then Res.err GoErr.encryptionFailed
  else
    let nonce := tape.take s.gcm.nonceSize
    Res.ok (nonce ++ s.gcm.Seal nonce plaintext, tape.drop s.gcm.nonceSize)

/-- `DecryptBytes(ciphertext []byte) ([]byte, error)`: like `Decrypt`
without the base64 step. -/
def Service.DecryptBytes (s : Service) (ciphertext : List Nat) :
    Res (List Nat) :=
  if ciphertext = [] then Res.ok []
  else if ciphertext.length < s.gcm.nonceSize then Res.err GoErr.invalidData
  else
    match s.gcm.Open' (ciphertext.take s.gcm.nonceSize)
          (ciphertext.drop s.gcm.nonceSize) with
    | none => Res.err GoErr.decryptionFailed
    | some plaintext => Res.ok plaintext

/-- A concrete engine satisfying the `cipher.AEAD` contract, used to
instantiate theorems on closed inputs.  `Seal` marks the payload with a
leading 0 byte; `Open'` only accepts such payloads. -/
def demoGCM : AEAD where
  nonceSize := 12
  Seal := fun _ pt => 0 :: pt
  Open' := fun _ ct =>
    match ct with
    | 0 :: pt => some pt
    | _ => none
  nonceSize_pos := by omega
  open_seal := fun _ _ => rfl
  seal_bytes := by
    intro _ pt h b hb
    rcases List.mem_cons.mp hb with h0 | h1
    · omega
    · exact h b h1

/-- The service built from `demoGCM`. -/
def demoService : Service := ⟨demoGCM⟩

/-! ## Reflection model for the record transforms

A `reflect.Value` is embedded as `GoVal`.  A struct field is a tuple of
its name, the result of `Tag.Get "encrypt"` (`""` when the tag is
absent), its `CanSet` status (false for unexported fields and for values
not obtained through a pointer) and its value.  Only the constructs the
transforms inspect are distinguished; every other kind is `vOther`. -/

inductive GoVal where
  | vStr (s : List Nat)
  | vStruct (fields : List (String × String × Bool × GoVal))
  | vPtr (p : GoVal)
  | vOther

abbrev GoField := String × String × Bool × GoVal

def fieldName (f : GoField) : String := f.1

def fieldTag (f : GoField) : String := f.2.1

def fieldCanSet (f : GoField) : Bool := f.2.2.1

def fieldVal (f : GoField) : GoVal := f.2.2.2

/-- `field.SetString(s)`: same name, tag and settability, new string value. -/
def setStr (f : GoField) (s : List Nat) : GoField :=
  (f.1, f.2.1, f.2.2.1, GoVal.vStr s)

/-- `if val.Kind() == reflect.Ptr { val = val.Elem() }` — one level only. -/
def derefOnce : GoVal → GoVal
  | GoVal.vPtr p => p
  | v => v

def structFields : GoVal → List GoField
  | GoVal.vStruct fields => fields
  | _ => []

def isStructVal : GoVal → Bool
  | GoVal.vStruct _ => true
  | _ => false

/-- The three `continue` guards of the tag-driven loops, in source order:
tag not `"true"`, kind not string or not settable, empty string.  Returns
the plaintext to transform when none of them fires. -/
def tagSelected (f : GoField) : Option (List Nat) :=
  if fieldTag f = "true" then
    match fieldVal f, fieldCanSet f with
    | GoVal.vStr p, true => if p = [] then none else some p
    | _, _ => none
  else none

/-- The field loop of `EncryptStruct`.  Returns the final state of the
field list when the function returns (on error: fields before the failing
one transformed, the failing one and all later ones untouched), the
remaining randomness tape, and the error if any. -/
def encFieldsTag (s : Service) : List GoField → List Nat →
    List GoField × List Nat × Option GoErr
  | [], tape => ([], tape, none)
  | f :: fs, tape =>
    match tagSelected f with
    | none =>
      let r := encFieldsTag s fs tape
      (f :: r.1, r.2.1, r.2.2)
    | some p =>
      match s.Encrypt tape p with
      | Res.err e => (f :: fs, tape, some e)
      | Res.ok (ct, tape') =>
        let r := encFieldsTag s fs tape'
        (setStr f ct :: r.1, r.2.1, r.2.2)

/-- The field loop of `DecryptStruct` (`Decrypt` draws no randomness). -/
def decFieldsTag (s : Service) : List GoField → List GoField × Option GoErr
  | [] => ([], none)
  | f :: fs =>
    match tagSelected f with
    | none =>
      let r := decFieldsTag s fs
      (f :: r.1, r.2)
    | some c =>
      match s.Decrypt c with
      | Res.err e => (f :: fs, some e)
      | Res.ok pt =>
        let r := decFieldsTag s fs
        (setStr f pt :: r.1, r.2)

/-- `EncryptStruct(v interface{}) error`: dereference one pointer level,
return `nil` without effect unless the result is a struct, else run the
tagged-field loop.  The result is the final state of the (dereferenced)
value, the remaining tape and the returned error.  No panic is possible
here: `SetString` is only reached behind the `CanSet` check. -/
def Service.EncryptStruct (s : Service) (v : GoVal) (tape : List Nat) :
    GoVal × List Nat × Option GoErr :=
  match derefOnce v with
  | GoVal.vStruct fields =>
    let r := encFieldsTag s fields tape
    (GoVal.vStruct r.1, r.2.1, r.2.2)
  | val => (val, tape, none)

/-- `DecryptStruct(v interface{}) error`. -/
def Service.DecryptStruct (s : Service) (v : GoVal) : GoVal × Option GoErr :=
  match derefOnce v with
  | GoVal.vStruct fields =>
    let r := decFieldsTag s fields
    (GoVal.vStruct r.1, r.2)
  | val => (val, none)

/-- `val.FieldByName(name)`: `some` field on a struct (zero `Value`,
i.e. `none`, when no field has the name).  On a non-struct `Value` the
real call panics; the caller below models that. -/
def findField (fields : List GoField) (n : String) : Option GoField :=
  fields.find? (fun f => fieldName f == n)

/-- In-place `SetString` on the (first, hence only) field named `n`. -/
def updateField : List GoField → String → List Nat → List GoField
  | [], _, _ => []
  | f :: fs, n, s =>
    if fieldName f == n then setStr f s :: fs
    else f :: updateField fs n s

/-- The name loop of `EncryptFields`: `FieldByName`, the
`!IsValid || !CanSet` guard, the kind guard, the empty-string guard, then
encrypt and `SetString`; abort with the error on encryption failure. -/
def encFieldsNamed (s : Service) : List String → List GoField → List Nat →
    List GoField × List Nat × Option GoErr
  | [], fields, tape => (fields, tape, none)
  | n :: ns, fields, tape =>
    match findField fields n with
    | none => encFieldsNamed s ns fields tape
    | some f =>
      if fieldCanSet f then
        match fieldVal f with
        | GoVal.vStr p =>
          if p = [] then encFieldsNamed s ns fields tape
          else
            match s.Encrypt tape p with
            | Res.err e => (fields, tape, some e)
            | Res.ok (ct, tape') =>
                encFieldsNamed s ns (updateField fields n ct) tape'
        | _ => encFieldsNamed s ns fields tape
      else encFieldsNamed s ns fields tape

/-- The name loop of `DecryptFields`. -/
def decFieldsNamed (s : Service) : List String → List GoField →
    List GoField × Option GoErr
  | [], fields => (fields, none)
  | n :: ns, fields =>
    match findField fields n with
    | none => decFieldsNamed s ns fields
    | some f =>
      if fieldCanSet f then
        match fieldVal f with
        | GoVal.vStr c =>
          if c = [] then decFieldsNamed s ns fields
          else
            match s.Decrypt c with
            | Res.err e => (fields, some e)
            | Res.ok pt => decFieldsNamed s ns (updateField fields n pt)
        | _ => decFieldsNamed s ns fields
      else decFieldsNamed s ns fields

/-- Outcome of `EncryptFields`: either a Go panic (no return value at
all) or a normal return. -/
inductive FOut where
  | panicked
  | done (v : GoVal) (tape : List Nat) (err : Option GoErr)

/-- Outcome of `DecryptFields`. -/
inductive DOut where
  | panicked
  | done (v : GoVal) (err : Option GoErr)

/-- `EncryptFields(v interface{}, fieldNames ...string) error`: unlike
`EncryptStruct` there is no struct-kind guard, so the first iteration of
the loop calls `FieldByName` on whatever `derefOnce` produced — a panic
whenever that is not a struct and the name list is non-empty. -/
def Service.EncryptFields (s : Service) (v : GoVal) (names : List String)
    (tape : List Nat) : FOut :=
  match derefOnce v with
  | GoVal.vStruct fields =>
    let r := encFieldsNamed s names fields tape
    FOut.done (GoVal.vStruct r.1) r.2.1 r.2.2
  | val =>
    match names with
    | [] => FOut.done val tape none
    | _ :: _ => FOut.panicked

/-- `DecryptFields(v interface{}, fieldNames ...string) error`. -/
def Service.DecryptFields (s : Service) (v : GoVal) (names : List String) :
    DOut :=
  match derefOnce v with
  | GoVal.vStruct fields =>
    let r := decFieldsNamed s names fields
    DOut.done (GoVal.vStruct r.1) r.2
  | val =>
    match names with
    | [] => DOut.done val none
    | _ :: _ => DOut.panicked

def foutFields : FOut → List GoField
  | FOut.panicked => []
  | FOut.done v _ _ => structFields v

def doutFields : DOut → List GoField
  | DOut.panicked => []
  | DOut.done v _ => structFields v

/-- Project a string value out of a `GoVal`. -/
def strOf : GoVal → Option (List Nat)
  | GoVal.vStr s => some s
  | _ => none

/-- A name the name-driven loops skip silently: it does not resolve, or
resolves to a non-settable or non-string field. -/
def badName (fields : List GoField) (m : String) : Prop :=
  match findField fields m with
  | none => True
  | some f => fieldCanSet f = false ∨ ∀ g, fieldVal f ≠ GoVal.vStr g

/-- Sample tagged settable string field (`Email string` with
`encrypt:"true"`, value `"a"`). -/
def emailField : GoField := ("Email", "true", true, GoVal.vStr [97])

/-- Sample untagged settable string field (`Name string`, value `"Al"`). -/
def nameField : GoField := ("Name", "", true, GoVal.vStr [65, 108])

/-- Sample untagged field holding a nested struct whose member is tagged. -/
def nestedField : GoField := ("Nested", "", true, GoVal.vStruct [emailField])

/-- Like `nestedField` but the composite member itself carries the tag. -/
def taggedNestedField : GoField :=
  ("Nested", "true", true, GoVal.vStruct [emailField])

theorem b64ValOf_b64CharOf : ∀ v < 64, b64ValOf (b64CharOf v) = some v := by
  decide

theorem b64CharOf_ne_pad : ∀ v < 64, b64CharOf v ≠ 61 := by
  decide

/-- Decoding inverts encoding on well-formed byte lists. -/
theorem b64decode_b64encode : ∀ l : List Nat, Bytes l →
    b64decode (b64encode l) = some l
  | [], _ => rfl
  | [a], h => by
    have ha : a < 256 := h a (by simp)
    have h1 := b64ValOf_b64CharOf (a / 4) (by omega)
    have h2 := b64ValOf_b64CharOf (a % 4 * 16) (by omega)
    simp only [b64encode, b64decode, h1, h2]
    simp only [if_pos rfl, and_self, reduceIte]
    simp only [Option.some.injEq, List.cons.injEq, and_true]
    omega
  | [a, b], h => by
    have ha : a < 256 := h a (by simp)
    have hb : b < 256 := h b (by simp)
    have h1 := b64ValOf_b64CharOf (a / 4) (by omega)
    have h2 := b64ValOf_b64CharOf (a % 4 * 16 + b / 16) (by omega)
    have h3 := b64ValOf_b64CharOf (b % 16 * 4) (by omega)
    have h3ne := b64CharOf_ne_pad (b % 16 * 4) (by omega)
    simp only [b64encode, b64decode, h1, h2, if_neg h3ne, h3,
      if_pos rfl, reduceIte]
    simp only [Option.some.injEq, List.cons.injEq, and_true]
    omega
  | a :: b :: c :: rest, h => by
    have ha : a < 256 := h a (by simp)
    have hb : b < 256 := h b (by simp)
    have hc : c < 256 := h c (by simp)
    have ih := b64decode_b64encode rest (fun x hx => h x (by simp [hx]))
    have h1 := b64ValOf_b64CharOf (a / 4) (by omega)
    have h2 := b64ValOf_b64CharOf (a % 4 * 16 + b / 16) (by omega)
    have h3 := b64ValOf_b64CharOf (b % 16 * 4 + c / 64) (by omega)
    have h4 := b64ValOf_b64CharOf (c % 64) (by omega)
    have h3ne := b64CharOf_ne_pad (b % 16 * 4 + c / 64) (by omega)
    have h4ne := b64CharOf_ne_pad (c % 64) (by omega)
    simp only [b64encode, b64decode, h1, h2, h3, h4, if_neg h3ne,
      if_neg h4ne, ih]
    simp only [Option.some.injEq, List.cons.injEq, and_true]
    omega

/-- Encoding a non-empty byte list never yields the empty string. -/
theorem b64encode_ne_nil : ∀ l : List Nat, l ≠ [] → b64encode l ≠ []
  | [], h => absurd rfl h
  | [_], _ => by simp [b64encode]
  | [_, _], _ => by simp [b64encode]
  | _ :: _ :: _ :: _, _ => by simp [b64encode]

/-- Encoding is injective on well-formed byte lists. -/
theorem b64encode_inj {l1 l2 : List Nat} (h1 : Bytes l1) (h2 : Bytes l2)
    (he : b64encode l1 = b64encode l2) : l1 = l2 := by
  have e1 := b64decode_b64encode l1 h1
  have e2 := b64decode_b64encode l2 h2
  rw [he, e2] at e1
  exact (Option.some.injEq _ _ ▸ e1).symm

/-! Helper facts about `Bytes`. -/

theorem Bytes_take {l : List Nat} (n : Nat) (h : Bytes l) : Bytes (l.take n) :=
  fun b hb => h b (List.take_subset n l hb)

theorem Bytes_drop {l : List Nat} (n : Nat) (h : Bytes l) : Bytes (l.drop n) :=
  fun b hb => h b (List.drop_subset n l hb)

theorem Bytes_append {l1 l2 : List Nat} (h1 : Bytes l1) (h2 : Bytes l2) :
    Bytes (l1 ++ l2) := by
  intro b hb
  rcases List.mem_append.mp hb with h | h
  · exact h1 b h
  · exact h2 b h

/-- Successful encryption, explicitly: the drawn nonce is the next
`nonceSize` tape bytes, it is prepended to the sealed payload, and the
whole blob is base64-encoded. -/
theorem Encrypt_eq (s : Service) (tape p : List Nat) (hp : p ≠ [])
    (ht : s.gcm.nonceSize ≤ tape.length) :
    s.Encrypt tape p =
      Res.ok (b64encode (tape.take s.gcm.nonceSize ++
                s.gcm.Seal (tape.take s.gcm.nonceSize) p),
              tape.drop s.gcm.nonceSize) := by
  simp only [Service.Encrypt, if_neg hp, if_neg (Nat.not_lt.mpr ht)]

/-- Like `Encrypt_eq` for the raw-bytes variant. -/
theorem EncryptBytes_eq (s : Service) (tape p : List Nat) (hp : p ≠ [])
    (ht : s.gcm.nonceSize ≤ tape.length) :
    s.EncryptBytes tape p =
      Res.ok (tape.take s.gcm.nonceSize ++
                s.gcm.Seal (tape.take s.gcm.nonceSize) p,
              tape.drop s.gcm.nonceSize) := by
  simp only [Service.EncryptBytes, if_neg hp, if_neg (Nat.not_lt.mpr ht)]

theorem nonce_length (s : Service) (tape : List Nat)
    (ht : s.gcm.nonceSize ≤ tape.length) :
    (tape.take s.gcm.nonceSize).length = s.gcm.nonceSize := by
  rw [List.length_take]
  omega

theorem nonce_ne_nil (s : Service) (tape : List Nat)
    (ht : s.gcm.nonceSize ≤ tape.length) :
    tape.take s.gcm.nonceSize ≠ [] := by
  intro h0
  have hl := nonce_length s tape ht
  rw [h0] at hl
  have hpos := s.gcm.nonceSize_pos
  simp only [List.length_nil] at hl
  omega

/-- Decryption of a well-formed blob `nonce ‖ sealed` recovers what
`Open'` recovers. -/
theorem Decrypt_b64_blob (s : Service) (nonce sealed : List Nat)
    (hn : nonce.length = s.gcm.nonceSize) (hnn : nonce ≠ [])
    (hb : Bytes (nonce ++ sealed)) :
    s.Decrypt (b64encode (nonce ++ sealed)) =
      match s.gcm.Open' nonce sealed with
      | none => Res.err GoErr.decryptionFailed
      | some plaintext => Res.ok plaintext := by
  have hne : b64encode (nonce ++ sealed) ≠ [] := by
    apply b64encode_ne_nil
    simp [List.append_eq_nil, hnn]
  have hlen : ¬ (nonce ++ sealed).length < s.gcm.nonceSize := by
    rw [List.length_append]
    omega
  simp only [Service.Decrypt, if_neg hne, b64decode_b64encode _ hb,
    if_neg hlen, List.take_left' hn, List.drop_left' hn]

/-- Like `Decrypt_b64_blob` for the raw-bytes variant. -/
theorem DecryptBytes_blob (s : Service) (nonce sealed : List Nat)
    (hn : nonce.length = s.gcm.nonceSize) (hnn : nonce ≠ []) :
    s.DecryptBytes (nonce ++ sealed) =
      match s.gcm.Open' nonce sealed with
      | none => Res.err GoErr.decryptionFailed
      | some plaintext => Res.ok plaintext := by
  have hne : nonce ++ sealed ≠ [] := by
    simp [List.append_eq_nil, hnn]
  have hlen : ¬ (nonce ++ sealed).length < s.gcm.nonceSize := by
    rw [List.length_append]
    omega
  simp only [Service.DecryptBytes, if_neg hne, if_neg hlen,
    List.take_left' hn, List.drop_left' hn]

/-- C1: for every key accepted by `NewService` and every non-empty
plaintext `p`, `Decrypt` applied to the result of `Encrypt p` returns `p`
with no error, and `DecryptBytes` applied to the result of
`EncryptBytes p` returns `p`. -/
theorem claim1_round_trip (mkGCM : List Nat → AEAD) (key : List Nat)
    (s : Service) (_hs : NewService mkGCM key = Res.ok s)
    (tape p : List Nat) (hp : p ≠ []) (hbp : Bytes p) (hbt : Bytes tape)
    (ht : s.gcm.nonceSize ≤ tape.length) :
    (∃ ct rest, s.Encrypt tape p = Res.ok (ct, rest) ∧
       s.Decrypt ct = Res.ok p) ∧
    (∃ ct rest, s.EncryptBytes tape p = Res.ok (ct, rest) ∧
       s.DecryptBytes ct = Res.ok p) := by
  have hn := nonce_length s tape ht
  have hnn := nonce_ne_nil s tape ht
  have hbn := Bytes_take s.gcm.nonceSize hbt
  have hbs := s.gcm.seal_bytes (tape.take s.gcm.nonceSize) p hbp
  have hbd := Bytes_append hbn hbs
  constructor
  · refine ⟨_, _, Encrypt_eq s tape p hp ht, ?_⟩
    rw [Decrypt_b64_blob s _ _ hn hnn hbd, s.gcm.open_seal]
  · refine ⟨_, _, EncryptBytes_eq s tape p hp ht, ?_⟩
    rw [DecryptBytes_blob s _ _ hn hnn, s.gcm.open_seal]

theorem claim1_round_trip_witness :
    NewService (fun _ => demoGCM) (List.replicate 32 0) = Res.ok demoService ∧
    ((∃ ct rest,
        demoService.Encrypt (List.replicate 12 0) [72, 105] =
          Res.ok (ct, rest) ∧
        demoService.Decrypt ct = Res.ok [72, 105]) ∧
     (∃ ct rest,
        demoService.EncryptBytes (List.replicate 12 0) [72, 105] =
          Res.ok (ct, rest) ∧
        demoService.DecryptBytes ct = Res.ok [72, 105])) :=
  ⟨rfl,
   claim1_round_trip (fun _ => demoGCM) (List.replicate 32 0) demoService rfl
     (List.replicate 12 0) [72, 105] (by decide) (by decide) (by decide)
     (by decide)⟩

/-- C2 (evaluating the code at the failing inputs): for keys of length
15, 17, 23, 25, 31, 33 `NewService` fails, but with the error of
`aes.NewCipher` (`aes.KeySizeError(n)`), not with the package's own
`ErrInvalidKeyLength`, which is declared and never returned; for lengths
16, 24, 32 it succeeds. -/
theorem claim2_keySizeError_not_invalidKeyLength :
    NewService (fun _ => demoGCM) (List.replicate 15 0) =
      Res.err (GoErr.keySizeError 15) ∧
    NewService (fun _ => demoGCM) (List.replicate 15 0) ≠
      Res.err GoErr.invalidKeyLength ∧
    NewService (fun _ => demoGCM) (List.replicate 17 0) =
      Res.err (GoErr.keySizeError 17) ∧
    NewService (fun _ => demoGCM) (List.replicate 23 0) =
      Res.err (GoErr.keySizeError 23) ∧
    NewService (fun _ => demoGCM) (List.replicate 25 0) =
      Res.err (GoErr.keySizeError 25) ∧
    NewService (fun _ => demoGCM) (List.replicate 31 0) =
      Res.err (GoErr.keySizeError 31) ∧
    NewService (fun _ => demoGCM) (List.replicate 33 0) =
      Res.err (GoErr.keySizeError 33) ∧
    NewService (fun _ => demoGCM) (List.replicate 16 0) = Res.ok demoService ∧
    NewService (fun _ => demoGCM) (List.replicate 24 0) = Res.ok demoService ∧
    NewService (fun _ => demoGCM) (List.replicate 32 0) = Res.ok demoService := by
  refine ⟨rfl, ?_, rfl, rfl, rfl, rfl, rfl, rfl, rfl, rfl⟩
  intro h
  simp [NewService] at h

/-- C4: for non-empty input, `Decrypt` fails with `InvalidData` when the
text is not valid base64 or decodes to fewer bytes than the nonce size,
and with `DecryptionFailed` (returning no plaintext) exactly when the
authenticated open fails; the raw-bytes variant behaves the same past the
base64 step.  The two error kinds are never swapped. -/
theorem claim4_decrypt_error_kinds (s : Service) (c : List Nat)
    (hc : c ≠ []) :
    (b64decode c = none → s.Decrypt c = Res.err GoErr.invalidData) ∧
    (∀ d, b64decode c = some d → d.length < s.gcm.nonceSize →
       s.Decrypt c = Res.err GoErr.invalidData) ∧
    (∀ d, b64decode c = some d → s.gcm.nonceSize ≤ d.length →
       s.gcm.Open' (d.take s.gcm.nonceSize) (d.drop s.gcm.nonceSize) =
         none →
       s.Decrypt c = Res.err GoErr.decryptionFailed) ∧
    (c.length < s.gcm.nonceSize →
       s.DecryptBytes c = Res.err GoErr.invalidData) ∧
    (s.gcm.nonceSize ≤ c.length →
       s.gcm.Open' (c.take s.gcm.nonceSize) (c.drop s.gcm.nonceSize) =
         none →
       s.DecryptBytes c = Res.err GoErr.decryptionFailed) := by
  refine ⟨?_, ?_, ?_, ?_, ?_⟩
  · intro hdec
    simp only [Service.Decrypt, if_neg hc, hdec]
  · intro d hdec hlt
    simp only [Service.Decrypt, if_neg hc, hdec, if_pos hlt]
  · intro d hdec hge hopen
    simp only [Service.Decrypt, if_neg hc, hdec,
      if_neg (Nat.not_lt.mpr hge), hopen]
  · intro hlt
    simp only [Service.DecryptBytes, if_neg hc, if_pos hlt]
  · intro hge hopen
    simp only [Service.DecryptBytes, if_neg hc,
      if_neg (Nat.not_lt.mpr hge), hopen]

theorem claim4_decrypt_error_kinds_witness :
    ([33] : List Nat) ≠ [] ∧
    ((b64decode [33] = none →
        demoService.Decrypt [33] = Res.err GoErr.invalidData) ∧
     (∀ d, b64decode [33] = some d → d.length < demoService.gcm.nonceSize →
        demoService.Decrypt [33] = Res.err GoErr.invalidData) ∧
     (∀ d, b64decode [33] = some d → demoService.gcm.nonceSize ≤ d.length →
        demoService.gcm.Open' (d.take demoService.gcm.nonceSize)
            (d.drop demoService.gcm.nonceSize) = none →
        demoService.Decrypt [33] = Res.err GoErr.decryptionFailed) ∧
     ((List.length [33]) < demoService.gcm.nonceSize →
        demoService.DecryptBytes [33] = Res.err GoErr.invalidData) ∧
     (demoService.gcm.nonceSize ≤ (List.length [33]) →
        demoService.gcm.Open' (List.take demoService.gcm.nonceSize [33])
            (List.drop demoService.gcm.nonceSize [33]) = none →
        demoService.DecryptBytes [33] = Res.err GoErr.decryptionFailed)) :=
  ⟨by decide, claim4_decrypt_error_kinds demoService [33] (by decide)⟩

/-- C5: every `Encrypt` and every `EncryptBytes` call with non-empty
input draws the next nonce from the randomness source and prepends it to
the sealed output; in both APIs, two encryptions of the same plaintext
under the same key whose drawn nonces differ produce different
ciphertexts. -/
theorem claim5_ciphertext_diversity (s : Service) (p t1 t2 : List Nat)
    (hp : p ≠ []) (hbp : Bytes p) (hb1 : Bytes t1) (hb2 : Bytes t2)
    (h1 : s.gcm.nonceSize ≤ t1.length) (h2 : s.gcm.nonceSize ≤ t2.length)
    (hn : t1.take s.gcm.nonceSize ≠ t2.take s.gcm.nonceSize) :
    (∃ c1 r1 c2 r2,
      s.Encrypt t1 p = Res.ok (c1, r1) ∧
      c1 = b64encode (t1.take s.gcm.nonceSize ++
             s.gcm.Seal (t1.take s.gcm.nonceSize) p) ∧
      s.Encrypt t2 p = Res.ok (c2, r2) ∧
      c2 = b64encode (t2.take s.gcm.nonceSize ++
             s.gcm.Seal (t2.take s.gcm.nonceSize) p) ∧
      c1 ≠ c2) ∧
    (∃ d1 w1 d2 w2,
      s.EncryptBytes t1 p = Res.ok (d1, w1) ∧
      d1 = t1.take s.gcm.nonceSize ++
             s.gcm.Seal (t1.take s.gcm.nonceSize) p ∧
      s.EncryptBytes t2 p = Res.ok (d2, w2) ∧
      d2 = t2.take s.gcm.nonceSize ++
             s.gcm.Seal (t2.take s.gcm.nonceSize) p ∧
      d1 ≠ d2) := by
  constructor
  · refine ⟨_, _, _, _, Encrypt_eq s t1 p hp h1, rfl,
      Encrypt_eq s t2 p hp h2, rfl, ?_⟩
    intro he
    have hd := b64encode_inj
      (Bytes_append (Bytes_take _ hb1) (s.gcm.seal_bytes _ p hbp))
      (Bytes_append (Bytes_take _ hb2) (s.gcm.seal_bytes _ p hbp)) he
    exact hn (List.append_inj_left hd
      (by rw [nonce_length s t1 h1, nonce_length s t2 h2]))
  · refine ⟨_, _, _, _, EncryptBytes_eq s t1 p hp h1, rfl,
      EncryptBytes_eq s t2 p hp h2, rfl, ?_⟩
    intro he
    exact hn (List.append_inj_left he
      (by rw [nonce_length s t1 h1, nonce_length s t2 h2]))

theorem claim5_ciphertext_diversity_witness :
    ([72] : List Nat) ≠ [] ∧
    (List.replicate 12 0 : List Nat).take demoService.gcm.nonceSize ≠
      (List.replicate 12 1 : List Nat).take demoService.gcm.nonceSize ∧
    ((∃ c1 r1 c2 r2,
      demoService.Encrypt (List.replicate 12 0) [72] = Res.ok (c1, r1) ∧
      c1 = b64encode ((List.replicate 12 0).take demoService.gcm.nonceSize ++
             demoService.gcm.Seal
               ((List.replicate 12 0).take demoService.gcm.nonceSize) [72]) ∧
      demoService.Encrypt (List.replicate 12 1) [72] = Res.ok (c2, r2) ∧
      c2 = b64encode ((List.replicate 12 1).take demoService.gcm.nonceSize ++
             demoService.gcm.Seal
               ((List.replicate 12 1).take demoService.gcm.nonceSize) [72]) ∧
      c1 ≠ c2) ∧
     (∃ d1 w1 d2 w2,
      demoService.EncryptBytes (List.replicate 12 0) [72] =
        Res.ok (d1, w1) ∧
      d1 = (List.replicate 12 0).take demoService.gcm.nonceSize ++
             demoService.gcm.Seal
               ((List.replicate 12 0).take demoService.gcm.nonceSize) [72] ∧
      demoService.EncryptBytes (List.replicate 12 1) [72] =
        Res.ok (d2, w2) ∧
      d2 = (List.replicate 12 1).take demoService.gcm.nonceSize ++
             demoService.gcm.Seal
               ((List.replicate 12 1).take demoService.gcm.nonceSize) [72] ∧
      d1 ≠ d2)) :=
  ⟨by decide, by decide,
   claim5_ciphertext_diversity demoService [72]
     (List.replicate 12 0) (List.replicate 12 1)
     (by decide) (by decide) (by decide) (by decide)
     (by decide) (by decide) (by decide)⟩

/-! ## Frame lemmas for the transformer loops -/

/-- A field the tag-driven loops skip: tag not the sentinel, or not a
string, or not settable, or the empty string. -/
theorem tagSelected_eq_none (f : GoField)
    (h : fieldTag f ≠ "true" ∨ (∀ g, fieldVal f ≠ GoVal.vStr g) ∨
         fieldCanSet f = false ∨ fieldVal f = GoVal.vStr []) :
    tagSelected f = none := by
  obtain ⟨n, t, c, v⟩ := f
  simp only [fieldTag, fieldVal, fieldCanSet] at h
  unfold tagSelected
  simp only [fieldTag, fieldVal, fieldCanSet]
  by_cases ht : t = "true"
  · rw [if_pos ht]
    rcases h with h | h | h | h
    · exact absurd ht h
    · cases v with
      | vStr s => exact absurd rfl (h s)
      | vStruct g => cases c <;> rfl
      | vPtr p => cases c <;> rfl
      | vOther => cases c <;> rfl
    · subst h
      cases v <;> rfl
    · subst h
      cases c <;> rfl
  · rw [if_neg ht]

/-- Tag-driven encryption leaves a skipped field exactly in place. -/
theorem encFieldsTag_skip (s : Service) :
    ∀ (fields : List GoField) (tape : List Nat) (i : Nat) (f : GoField),
      fields[i]? = some f → tagSelected f = none →
      (encFieldsTag s fields tape).1[i]? = some f := by
  intro fields
  induction fields with
  | nil =>
    intro tape i f hf _
    simp at hf
  | cons g fs ih =>
    intro tape i f hf hsel
    cases i with
    | zero =>
      simp only [List.getElem?_cons_zero, Option.some.injEq] at hf
      subst hf
      simp [encFieldsTag, hsel]
    | succ j =>
      simp only [List.getElem?_cons_succ] at hf
      simp only [encFieldsTag]
      split
      · simpa using ih tape j f hf hsel
      · split
        · simpa using hf
        · simpa using ih _ j f hf hsel

/-- Tag-driven decryption leaves a skipped field exactly in place. -/
theorem decFieldsTag_skip (s : Service) :
    ∀ (fields : List GoField) (i : Nat) (f : GoField),
      fields[i]? = some f → tagSelected f = none →
      (decFieldsTag s fields).1[i]? = some f := by
  intro fields
  induction fields with
  | nil =>
    intro i f hf _
    simp at hf
  | cons g fs ih =>
    intro i f hf hsel
    cases i with
    | zero =>
      simp only [List.getElem?_cons_zero, Option.some.injEq] at hf
      subst hf
      simp [decFieldsTag, hsel]
    | succ j =>
      simp only [List.getElem?_cons_succ] at hf
      simp only [decFieldsTag]
      split
      · simpa using ih j f hf hsel
      · split
        · simpa using hf
        · simpa using ih j f hf hsel

/-- A skipped field passes through the encrypting tag loop contributing
nothing: the outcome — remaining tape and error included — is exactly
that of the loop on the remaining fields. -/
theorem encFieldsTag_cons_skip (s : Service) (f : GoField)
    (fs : List GoField) (tape : List Nat) (hsel : tagSelected f = none) :
    encFieldsTag s (f :: fs) tape =
      (f :: (encFieldsTag s fs tape).1, (encFieldsTag s fs tape).2.1,
       (encFieldsTag s fs tape).2.2) := by
  simp only [encFieldsTag, hsel]

/-- Like `encFieldsTag_cons_skip` for the decrypting tag loop. -/
theorem decFieldsTag_cons_skip (s : Service) (f : GoField)
    (fs : List GoField) (hsel : tagSelected f = none) :
    decFieldsTag s (f :: fs) =
      (f :: (decFieldsTag s fs).1, (decFieldsTag s fs).2) := by
  simp only [decFieldsTag, hsel]

/-- `updateField` does not move or change a field with a different name. -/
theorem updateField_ne :
    ∀ (fields : List GoField) (n : String) (val : List Nat) (i : Nat)
      (f : GoField), fields[i]? = some f → fieldName f ≠ n →
      (updateField fields n val)[i]? = some f := by
  intro fields
  induction fields with
  | nil =>
    intro n val i f hf _
    simp at hf
  | cons g fs ih =>
    intro n val i f hf hn
    cases i with
    | zero =>
      simp only [List.getElem?_cons_zero, Option.some.injEq] at hf
      subst hf
      simp only [updateField]
      rw [if_neg (by simpa using hn)]
      simp
    | succ j =>
      simp only [List.getElem?_cons_succ] at hf
      simp only [updateField]
      by_cases hg : fieldName g == n
      · rw [if_pos hg]
        simpa using hf
      · rw [if_neg hg]
        simpa using ih n val j f hf hn

/-- Name-driven encryption leaves a field whose name is not in the list
exactly in place. -/
theorem encFieldsNamed_skip (s : Service) :
    ∀ (names : List String) (fields : List GoField) (tape : List Nat)
      (i : Nat) (f : GoField),
      fields[i]? = some f → (∀ n ∈ names, fieldName f ≠ n) →
      (encFieldsNamed s names fields tape).1[i]? = some f := by
  intro names
  induction names with
  | nil =>
    intro fields tape i f hf _
    simpa [encFieldsNamed] using hf
  | cons n ns ih =>
    intro fields tape i f hf hn
    have hn0 : fieldName f ≠ n := hn n (by simp)
    have hns : ∀ m ∈ ns, fieldName f ≠ m := fun m hm => hn m (by simp [hm])
    simp only [encFieldsNamed]
    split
    · exact ih fields tape i f hf hns
    · split
      · split
        · split
          · exact ih fields tape i f hf hns
          · split
            · simpa using hf
            · exact ih _ _ i f (updateField_ne fields n _ i f hf hn0) hns
        · exact ih fields tape i f hf hns
      · exact ih fields tape i f hf hns

/-- Name-driven decryption leaves a field whose name is not in the list
exactly in place. -/
theorem decFieldsNamed_skip (s : Service) :
    ∀ (names : List String) (fields : List GoField) (i : Nat) (f : GoField),
      fields[i]? = some f → (∀ n ∈ names, fieldName f ≠ n) →
      (decFieldsNamed s names fields).1[i]? = some f := by
  intro names
  induction names with
  | nil =>
    intro fields i f hf _
    simpa [decFieldsNamed] using hf
  | cons n ns ih =>
    intro fields i f hf hn
    have hn0 : fieldName f ≠ n := hn n (by simp)
    have hns : ∀ m ∈ ns, fieldName f ≠ m := fun m hm => hn m (by simp [hm])
    simp only [decFieldsNamed]
    split
    · exact ih fields i f hf hns
    · split
      · split
        · split
          · exact ih fields i f hf hns
          · split
            · simpa using hf
            · exact ih _ i f (updateField_ne fields n _ i f hf hn0) hns
        · exact ih fields i f hf hns
      · exact ih fields i f hf hns

/-! ## Composition and first-error lemmas for the loops -/

/-- Splitting a tag-driven encryption run after an error-free prefix. -/
theorem encFieldsTag_append (s : Service) :
    ∀ (pre post : List GoField) (tape : List Nat),
      (encFieldsTag s pre tape).2.2 = none →
      encFieldsTag s (pre ++ post) tape =
        ((encFieldsTag s pre tape).1 ++
           (encFieldsTag s post (encFieldsTag s pre tape).2.1).1,
         (encFieldsTag s post (encFieldsTag s pre tape).2.1).2.1,
         (encFieldsTag s post (encFieldsTag s pre tape).2.1).2.2) := by
  intro pre
  induction pre with
  | nil =>
    intro post tape _
    simp [encFieldsTag]
  | cons f fs ih =>
    intro post tape herr
    cases hsg : tagSelected f with
    | none =>
      simp only [List.cons_append, List.append_eq, encFieldsTag, hsg] at herr ⊢
      rw [ih post tape herr]
    | some p =>
      cases henc : s.Encrypt tape p with
      | err e =>
        simp only [encFieldsTag, hsg, henc] at herr
        exact Option.noConfusion herr
      | ok r =>
        obtain ⟨ct, tape'⟩ := r
        simp only [List.cons_append, List.append_eq, encFieldsTag, hsg, henc] at herr ⊢
        rw [ih post tape' herr]

/-- A tag-selected field whose encryption fails stops the loop at once:
the failing field and everything after it stay untouched, the error is
returned as is. -/
theorem encFieldsTag_error (s : Service) (f : GoField) (fs : List GoField)
    (tape p : List Nat) (e : GoErr)
    (hsel : tagSelected f = some p) (henc : s.Encrypt tape p = Res.err e) :
    encFieldsTag s (f :: fs) tape = (f :: fs, tape, some e) := by
  simp only [encFieldsTag, hsel, henc]

/-- Splitting a tag-driven decryption run after an error-free prefix. -/
theorem decFieldsTag_append (s : Service) :
    ∀ (pre post : List GoField),
      (decFieldsTag s pre).2 = none →
      decFieldsTag s (pre ++ post) =
        ((decFieldsTag s pre).1 ++ (decFieldsTag s post).1,
         (decFieldsTag s post).2) := by
  intro pre
  induction pre with
  | nil =>
    intro post _
    simp [decFieldsTag]
  | cons f fs ih =>
    intro post herr
    cases hsg : tagSelected f with
    | none =>
      simp only [List.cons_append, List.append_eq, decFieldsTag, hsg] at herr ⊢
      rw [ih post herr]
    | some c =>
      cases hdec : s.Decrypt c with
      | err e =>
        simp only [decFieldsTag, hsg, hdec] at herr
        exact Option.noConfusion herr
      | ok pt =>
        simp only [List.cons_append, List.append_eq, decFieldsTag, hsg, hdec] at herr ⊢
        rw [ih post herr]

/-- A tag-selected field whose decryption fails stops the loop at once. -/
theorem decFieldsTag_error (s : Service) (f : GoField) (fs : List GoField)
    (c : List Nat) (e : GoErr)
    (hsel : tagSelected f = some c) (hdec : s.Decrypt c = Res.err e) :
    decFieldsTag s (f :: fs) = (f :: fs, some e) := by
  simp only [decFieldsTag, hsel, hdec]

/-- Splitting a name-driven encryption run after an error-free prefix of
the name list. -/
theorem encFieldsNamed_append (s : Service) :
    ∀ (ns1 ns2 : List String) (fields : List GoField) (tape : List Nat),
      (encFieldsNamed s ns1 fields tape).2.2 = none →
      encFieldsNamed s (ns1 ++ ns2) fields tape =
        encFieldsNamed s ns2 (encFieldsNamed s ns1 fields tape).1
          (encFieldsNamed s ns1 fields tape).2.1 := by
  intro ns1
  induction ns1 with
  | nil =>
    intro ns2 fields tape _
    simp [encFieldsNamed]
  | cons n ns ih =>
    intro ns2 fields tape herr
    cases hfind : findField fields n with
    | none =>
      simp only [List.cons_append, List.append_eq, encFieldsNamed, hfind] at herr ⊢
      exact ih ns2 fields tape herr
    | some g =>
      cases hset : fieldCanSet g with
      | false =>
        simp only [List.cons_append, List.append_eq, encFieldsNamed, hfind, hset,
          Bool.false_eq_true, reduceIte] at herr ⊢
        exact ih ns2 fields tape herr
      | true =>
        cases hgv : fieldVal g with
        | vStr p =>
          by_cases hp : p = []
          · simp only [List.cons_append, List.append_eq, encFieldsNamed, hfind, hset, hgv,
              if_pos hp, reduceIte] at herr ⊢
            exact ih ns2 fields tape herr
          · cases henc : s.Encrypt tape p with
            | err e =>
              simp only [encFieldsNamed, hfind, hset, hgv, if_neg hp,
                henc, reduceIte] at herr
              exact Option.noConfusion herr
            | ok r =>
              obtain ⟨ct, tape'⟩ := r
              simp only [List.cons_append, List.append_eq, encFieldsNamed, hfind, hset,
                hgv, if_neg hp, henc, reduceIte] at herr ⊢
              exact ih ns2 (updateField fields n ct) tape' herr
        | vStruct g2 =>
          simp only [List.cons_append, List.append_eq, encFieldsNamed, hfind, hset, hgv,
            reduceIte] at herr ⊢
          exact ih ns2 fields tape herr
        | vPtr q =>
          simp only [List.cons_append, List.append_eq, encFieldsNamed, hfind, hset, hgv,
            reduceIte] at herr ⊢
          exact ih ns2 fields tape herr
        | vOther =>
          simp only [List.cons_append, List.append_eq, encFieldsNamed, hfind, hset, hgv,
            reduceIte] at herr ⊢
          exact ih ns2 fields tape herr

/-- A resolved, settable, non-empty string field whose encryption fails
stops the name loop at once, propagating the error with no further
change. -/
theorem encFieldsNamed_error (s : Service) (n : String) (ns : List String)
    (fields : List GoField) (tape p : List Nat) (g : GoField) (e : GoErr)
    (hfind : findField fields n = some g) (hset : fieldCanSet g = true)
    (hgv : fieldVal g = GoVal.vStr p) (hp : p ≠ [])
    (henc : s.Encrypt tape p = Res.err e) :
    encFieldsNamed s (n :: ns) fields tape = (fields, tape, some e) := by
  simp only [encFieldsNamed, hfind, hset, hgv, if_neg hp, henc, reduceIte]

/-- Splitting a name-driven decryption run after an error-free prefix of
the name list. -/
theorem decFieldsNamed_append (s : Service) :
    ∀ (ns1 ns2 : List String) (fields : List GoField),
      (decFieldsNamed s ns1 fields).2 = none →
      decFieldsNamed s (ns1 ++ ns2) fields =
        decFieldsNamed s ns2 (decFieldsNamed s ns1 fields).1 := by
  intro ns1
  induction ns1 with
  | nil =>
    intro ns2 fields _
    simp [decFieldsNamed]
  | cons n ns ih =>
    intro ns2 fields herr
    cases hfind : findField fields n with
    | none =>
      simp only [List.cons_append, List.append_eq, decFieldsNamed, hfind] at herr ⊢
      exact ih ns2 fields herr
    | some g =>
      cases hset : fieldCanSet g with
      | false =>
        simp only [List.cons_append, List.append_eq, decFieldsNamed, hfind, hset,
          Bool.false_eq_true, reduceIte] at herr ⊢
        exact ih ns2 fields herr
      | true =>
        cases hgv : fieldVal g with
        | vStr c =>
          by_cases hc : c = []
          · simp only [List.cons_append, List.append_eq, decFieldsNamed, hfind, hset, hgv,
              if_pos hc, reduceIte] at herr ⊢
            exact ih ns2 fields herr
          · cases hdec : s.Decrypt c with
            | err e =>
              simp only [decFieldsNamed, hfind, hset, hgv, if_neg hc,
                hdec, reduceIte] at herr
              exact Option.noConfusion herr
            | ok pt =>
              simp only [List.cons_append, List.append_eq, decFieldsNamed, hfind, hset,
                hgv, if_neg hc, hdec, reduceIte] at herr ⊢
              exact ih ns2 (updateField fields n pt) herr
        | vStruct g2 =>
          simp only [List.cons_append, List.append_eq, decFieldsNamed, hfind, hset, hgv,
            reduceIte] at herr ⊢
          exact ih ns2 fields herr
        | vPtr q =>
          simp only [List.cons_append, List.append_eq, decFieldsNamed, hfind, hset, hgv,
            reduceIte] at herr ⊢
          exact ih ns2 fields herr
        | vOther =>
          simp only [List.cons_append, List.append_eq, decFieldsNamed, hfind, hset, hgv,
            reduceIte] at herr ⊢
          exact ih ns2 fields herr

/-- Like `encFieldsNamed_error` for decryption. -/
theorem decFieldsNamed_error (s : Service) (n : String) (ns : List String)
    (fields : List GoField) (c : List Nat) (g : GoField) (e : GoErr)
    (hfind : findField fields n = some g) (hset : fieldCanSet g = true)
    (hgv : fieldVal g = GoVal.vStr c) (hc : c ≠ [])
    (hdec : s.Decrypt c = Res.err e) :
    decFieldsNamed s (n :: ns) fields = (fields, some e) := by
  simp only [decFieldsNamed, hfind, hset, hgv, if_neg hc, hdec, reduceIte]

/-- A name list made only of bad names leaves the encrypting name loop
without any effect and without error. -/
theorem encFieldsNamed_bad (s : Service) :
    ∀ (names : List String) (fields : List GoField) (tape : List Nat),
      (∀ m ∈ names, badName fields m) →
      encFieldsNamed s names fields tape = (fields, tape, none) := by
  intro names
  induction names with
  | nil =>
    intro fields tape _
    rfl
  | cons n ns ih =>
    intro fields tape hbad
    have hbs : ∀ m ∈ ns, badName fields m := fun m hm => hbad m (by simp [hm])
    cases hfind : findField fields n with
    | none =>
      simp only [encFieldsNamed, hfind]
      exact ih fields tape hbs
    | some g =>
      have hb : fieldCanSet g = false ∨ ∀ q, fieldVal g ≠ GoVal.vStr q := by
        have := hbad n (by simp)
        simpa [badName, hfind] using this
      rcases hb with hb | hb
      · simp only [encFieldsNamed, hfind, hb, Bool.false_eq_true, reduceIte]
        exact ih fields tape hbs
      · cases hgv : fieldVal g with
        | vStr p => exact absurd hgv (hb p)
        | vStruct q =>
          cases hcs : fieldCanSet g <;>
            simp only [encFieldsNamed, hfind, hcs, hgv, Bool.false_eq_true,
              reduceIte] <;>
            exact ih fields tape hbs
        | vPtr q =>
          cases hcs : fieldCanSet g <;>
            simp only [encFieldsNamed, hfind, hcs, hgv, Bool.false_eq_true,
              reduceIte] <;>
            exact ih fields tape hbs
        | vOther =>
          cases hcs : fieldCanSet g <;>
            simp only [encFieldsNamed, hfind, hcs, hgv, Bool.false_eq_true,
              reduceIte] <;>
            exact ih fields tape hbs

/-- Like `encFieldsNamed_bad` for the decrypting name loop. -/
theorem decFieldsNamed_bad (s : Service) :
    ∀ (names : List String) (fields : List GoField),
      (∀ m ∈ names, badName fields m) →
      decFieldsNamed s names fields = (fields, none) := by
  intro names
  induction names with
  | nil =>
    intro fields _
    rfl
  | cons n ns ih =>
    intro fields hbad
    have hbs : ∀ m ∈ ns, badName fields m := fun m hm => hbad m (by simp [hm])
    cases hfind : findField fields n with
    | none =>
      simp only [decFieldsNamed, hfind]
      exact ih fields hbs
    | some g =>
      have hb : fieldCanSet g = false ∨ ∀ q, fieldVal g ≠ GoVal.vStr q := by
        have := hbad n (by simp)
        simpa [badName, hfind] using this
      rcases hb with hb | hb
      · simp only [decFieldsNamed, hfind, hb, Bool.false_eq_true, reduceIte]
        exact ih fields hbs
      · cases hgv : fieldVal g with
        | vStr p => exact absurd hgv (hb p)
        | vStruct q =>
          cases hcs : fieldCanSet g <;>
            simp only [decFieldsNamed, hfind, hcs, hgv, Bool.false_eq_true,
              reduceIte] <;>
            exact ih fields hbs
        | vPtr q =>
          cases hcs : fieldCanSet g <;>
            simp only [decFieldsNamed, hfind, hcs, hgv, Bool.false_eq_true,
              reduceIte] <;>
            exact ih fields hbs
        | vOther =>
          cases hcs : fieldCanSet g <;>
            simp only [decFieldsNamed, hfind, hcs, hgv, Bool.false_eq_true,
              reduceIte] <;>
            exact ih fields hbs

/-- C3 (counterexample): the tag-driven transform does not recurse.  With
the same tagged string member, the member is transformed at depth one but
left untouched at depth two (inside a nested composite), even when the
composite itself carries the tag; so it is not "transformed identically
whether it sits one or two levels deep". -/
theorem claim3_counterexample :
    ((structFields (demoService.EncryptStruct (GoVal.vStruct [emailField])
        (List.replicate 12 0)).1)[0]?.map (fun f => strOf (fieldVal f))) ≠
      some (some [97]) ∧
    demoService.EncryptStruct (GoVal.vStruct [nestedField])
        (List.replicate 12 0) =
      (GoVal.vStruct [nestedField], List.replicate 12 0, none) ∧
    demoService.EncryptStruct (GoVal.vStruct [taggedNestedField])
        (List.replicate 12 0) =
      (GoVal.vStruct [taggedNestedField], List.replicate 12 0, none) ∧
    demoService.DecryptStruct (GoVal.vStruct [nestedField]) =
      (GoVal.vStruct [nestedField], none) := by
  refine ⟨by decide, rfl, rfl, rfl⟩

/-- C3 (amended): the tag-driven transforms are flat: they walk only the
top-level fields of the (pointer-dereferenced) struct, and a field whose
value is itself a composite is skipped — left exactly in place — by both
directions, whatever its tag; members inside nested composites are never
transformed. -/
theorem claim3_no_recursion (s : Service) (tape : List Nat)
    (fields : List GoField) (i : Nat) (f : GoField) (g : List GoField)
    (hf : fields[i]? = some f) (hv : fieldVal f = GoVal.vStruct g) :
    (structFields (s.EncryptStruct (GoVal.vStruct fields) tape).1)[i]? =
      some f ∧
    (structFields (s.DecryptStruct (GoVal.vStruct fields)).1)[i]? =
      some f := by
  have hsel : tagSelected f = none :=
    tagSelected_eq_none f (Or.inr (Or.inl (fun q hq => by
      rw [hv] at hq
      exact GoVal.noConfusion hq)))
  constructor
  · simpa [Service.EncryptStruct, derefOnce, structFields] using
      encFieldsTag_skip s fields tape i f hf hsel
  · simpa [Service.DecryptStruct, derefOnce, structFields] using
      decFieldsTag_skip s fields i f hf hsel

theorem claim3_no_recursion_witness :
    ([nestedField] : List GoField)[0]? = some nestedField ∧
    fieldVal nestedField = GoVal.vStruct [emailField] ∧
    ((structFields (demoService.EncryptStruct (GoVal.vStruct [nestedField])
        (List.replicate 12 0)).1)[0]? = some nestedField ∧
     (structFields (demoService.DecryptStruct
        (GoVal.vStruct [nestedField])).1)[0]? = some nestedField) :=
  ⟨rfl, rfl,
   claim3_no_recursion demoService (List.replicate 12 0) [nestedField] 0
     nestedField [emailField] rfl rfl⟩

/-- C6: a Cipher Core error aborts both transforms at once and is
propagated verbatim: in tag mode the result keeps the already-transformed
prefix and leaves the failing field and everything after it untouched; in
name mode the fields transformed for earlier names stay transformed and
nothing else changes. -/
theorem claim6_abort_on_first_error (s : Service) (tape : List Nat) :
    (∀ (pre : List GoField) (f : GoField) (post : List GoField)
       (p : List Nat) (e : GoErr),
       (encFieldsTag s pre tape).2.2 = none →
       tagSelected f = some p →
       s.Encrypt (encFieldsTag s pre tape).2.1 p = Res.err e →
       s.EncryptStruct (GoVal.vStruct (pre ++ f :: post)) tape =
         (GoVal.vStruct ((encFieldsTag s pre tape).1 ++ f :: post),
          (encFieldsTag s pre tape).2.1, some e)) ∧
    (∀ (fields : List GoField) (ns1 : List String) (n : String)
       (ns2 : List String) (g : GoField) (p : List Nat) (e : GoErr),
       (encFieldsNamed s ns1 fields tape).2.2 = none →
       findField (encFieldsNamed s ns1 fields tape).1 n = some g →
       fieldCanSet g = true → fieldVal g = GoVal.vStr p → p ≠ [] →
       s.Encrypt (encFieldsNamed s ns1 fields tape).2.1 p = Res.err e →
       s.EncryptFields (GoVal.vStruct fields) (ns1 ++ n :: ns2) tape =
         FOut.done (GoVal.vStruct (encFieldsNamed s ns1 fields tape).1)
           (encFieldsNamed s ns1 fields tape).2.1 (some e)) := by
  constructor
  · intro pre f post p e herr hsel henc
    simp only [Service.EncryptStruct, derefOnce]
    rw [encFieldsTag_append s pre (f :: post) tape herr,
      encFieldsTag_error s f post _ p e hsel henc]
  · intro fields ns1 n ns2 g p e herr hfind hset hgv hp henc
    simp only [Service.EncryptFields, derefOnce]
    rw [encFieldsNamed_append s ns1 (n :: ns2) fields tape herr,
      encFieldsNamed_error s n ns2 _ _ p g e hfind hset hgv hp henc]

theorem claim6_abort_on_first_error_witness :
    (encFieldsTag demoService [] ([] : List Nat)).2.2 = none ∧
    tagSelected emailField = some [97] ∧
    demoService.Encrypt (encFieldsTag demoService [] []).2.1 [97] =
      Res.err GoErr.encryptionFailed ∧
    demoService.EncryptStruct
        (GoVal.vStruct ([] ++ emailField :: [nameField])) [] =
      (GoVal.vStruct ((encFieldsTag demoService [] []).1 ++
          emailField :: [nameField]),
       (encFieldsTag demoService [] []).2.1,
       some GoErr.encryptionFailed) ∧
    demoService.EncryptFields (GoVal.vStruct [emailField])
        ([] ++ "Email" :: ["Name"]) [] =
      FOut.done (GoVal.vStruct (encFieldsNamed demoService [] [emailField]
          []).1)
        (encFieldsNamed demoService [] [emailField] []).2.1
        (some GoErr.encryptionFailed) :=
  ⟨rfl, rfl, rfl,
   (claim6_abort_on_first_error demoService []).1 [] emailField [nameField]
     [97] GoErr.encryptionFailed rfl rfl rfl,
   (claim6_abort_on_first_error demoService []).2 [emailField] [] "Email"
     ["Name"] emailField [97] GoErr.encryptionFailed rfl rfl rfl rfl
     (by decide) rfl⟩

/-- C7: fields that are not selected keep their exact prior value with no
error: in tag mode any field whose tag is absent or not `"true"`, or that
is not of string kind, or not settable, is left in place and passes
through the loop without contributing any error (the loop's tape and
error are those of the remaining fields alone, and such a field on its
own makes the transform return `nil`); in name mode any field whose name
is not in the supplied list is left in place. -/
theorem claim7_unselected_untouched (s : Service) (tape : List Nat)
    (fields : List GoField) (i : Nat) (f : GoField) (names : List String)
    (hf : fields[i]? = some f) :
    ((fieldTag f ≠ "true" ∨ (∀ g, fieldVal f ≠ GoVal.vStr g) ∨
        fieldCanSet f = false) →
      (structFields (s.EncryptStruct (GoVal.vStruct fields) tape).1)[i]? =
        some f ∧
      (structFields (s.DecryptStruct (GoVal.vStruct fields)).1)[i]? =
        some f) ∧
    ((∀ n ∈ names, fieldName f ≠ n) →
      (foutFields (s.EncryptFields (GoVal.vStruct fields) names tape))[i]? =
        some f ∧
      (doutFields (s.DecryptFields (GoVal.vStruct fields) names))[i]? =
        some f) ∧
    ((fieldTag f ≠ "true" ∨ (∀ g, fieldVal f ≠ GoVal.vStr g) ∨
        fieldCanSet f = false) →
      (∀ fs : List GoField,
        encFieldsTag s (f :: fs) tape =
          (f :: (encFieldsTag s fs tape).1, (encFieldsTag s fs tape).2.1,
           (encFieldsTag s fs tape).2.2) ∧
        decFieldsTag s (f :: fs) =
          (f :: (decFieldsTag s fs).1, (decFieldsTag s fs).2)) ∧
      s.EncryptStruct (GoVal.vStruct [f]) tape =
        (GoVal.vStruct [f], tape, none) ∧
      s.DecryptStruct (GoVal.vStruct [f]) = (GoVal.vStruct [f], none)) := by
  refine ⟨?_, ?_, ?_⟩
  · intro hsel'
    have hsel : tagSelected f = none := tagSelected_eq_none f (by tauto)
    constructor
    · simpa [Service.EncryptStruct, derefOnce, structFields] using
        encFieldsTag_skip s fields tape i f hf hsel
    · simpa [Service.DecryptStruct, derefOnce, structFields] using
        decFieldsTag_skip s fields i f hf hsel
  · intro hmem
    constructor
    · simpa [Service.EncryptFields, derefOnce, foutFields, structFields]
        using encFieldsNamed_skip s names fields tape i f hf hmem
    · simpa [Service.DecryptFields, derefOnce, doutFields, structFields]
        using decFieldsNamed_skip s names fields i f hf hmem
  · intro hsel'
    have hsel : tagSelected f = none := tagSelected_eq_none f (by tauto)
    refine ⟨fun fs => ⟨encFieldsTag_cons_skip s f fs tape hsel,
      decFieldsTag_cons_skip s f fs hsel⟩, ?_, ?_⟩
    · simp [Service.EncryptStruct, derefOnce, encFieldsTag, hsel]
    · simp [Service.DecryptStruct, derefOnce, decFieldsTag, hsel]

theorem claim7_unselected_untouched_witness :
    ([nameField, emailField] : List GoField)[0]? = some nameField ∧
    (((fieldTag nameField ≠ "true" ∨
        (∀ g, fieldVal nameField ≠ GoVal.vStr g) ∨
        fieldCanSet nameField = false) →
      (structFields (demoService.EncryptStruct
          (GoVal.vStruct [nameField, emailField])
          (List.replicate 12 0)).1)[0]? = some nameField ∧
      (structFields (demoService.DecryptStruct
          (GoVal.vStruct [nameField, emailField])).1)[0]? =
        some nameField) ∧
    ((∀ n ∈ (["Email"] : List String), fieldName nameField ≠ n) →
      (foutFields (demoService.EncryptFields
          (GoVal.vStruct [nameField, emailField]) ["Email"]
          (List.replicate 12 0)))[0]? = some nameField ∧
      (doutFields (demoService.DecryptFields
          (GoVal.vStruct [nameField, emailField]) ["Email"]))[0]? =
        some nameField) ∧
    ((fieldTag nameField ≠ "true" ∨
        (∀ g, fieldVal nameField ≠ GoVal.vStr g) ∨
        fieldCanSet nameField = false) →
      (∀ fs : List GoField,
        encFieldsTag demoService (nameField :: fs) (List.replicate 12 0) =
          (nameField ::
             (encFieldsTag demoService fs (List.replicate 12 0)).1,
           (encFieldsTag demoService fs (List.replicate 12 0)).2.1,
           (encFieldsTag demoService fs (List.replicate 12 0)).2.2) ∧
        decFieldsTag demoService (nameField :: fs) =
          (nameField :: (decFieldsTag demoService fs).1,
           (decFieldsTag demoService fs).2)) ∧
      demoService.EncryptStruct (GoVal.vStruct [nameField])
          (List.replicate 12 0) =
        (GoVal.vStruct [nameField], List.replicate 12 0, none) ∧
      demoService.DecryptStruct (GoVal.vStruct [nameField]) =
        (GoVal.vStruct [nameField], none))) :=
  ⟨rfl,
   claim7_unselected_untouched demoService (List.replicate 12 0)
     [nameField, emailField] 0 nameField ["Email"] rfl⟩

/-- C8: the name-driven transforms carry no tag check at all — a named,
settable, non-empty string field is transformed whatever its tag — and a
list made only of names that do not resolve, or resolve to non-settable
or non-string fields, is skipped silently with a successful return and no
change. -/
theorem claim8_named_ignores_tag (s : Service) (tape : List Nat) :
    (∀ (fields : List GoField) (n : String) (g : GoField)
       (p ct tape' : List Nat),
       findField fields n = some g → fieldCanSet g = true →
       fieldVal g = GoVal.vStr p → p ≠ [] →
       s.Encrypt tape p = Res.ok (ct, tape') →
       s.EncryptFields (GoVal.vStruct fields) [n] tape =
         FOut.done (GoVal.vStruct (updateField fields n ct)) tape' none) ∧
    (∀ (fields : List GoField) (n : String) (g : GoField)
       (c pt : List Nat),
       findField fields n = some g → fieldCanSet g = true →
       fieldVal g = GoVal.vStr c → c ≠ [] →
       s.Decrypt c = Res.ok pt →
       s.DecryptFields (GoVal.vStruct fields) [n] =
         DOut.done (GoVal.vStruct (updateField fields n pt)) none) ∧
    (∀ (fields : List GoField) (names : List String),
       (∀ m ∈ names, badName fields m) →
       s.EncryptFields (GoVal.vStruct fields) names tape =
         FOut.done (GoVal.vStruct fields) tape none ∧
       s.DecryptFields (GoVal.vStruct fields) names =
         DOut.done (GoVal.vStruct fields) none) := by
  refine ⟨?_, ?_, ?_⟩
  · intro fields n g p ct tape' hfind hset hgv hp henc
    simp only [Service.EncryptFields, derefOnce, encFieldsNamed, hfind,
      hset, hgv, if_neg hp, henc, reduceIte]
  · intro fields n g c pt hfind hset hgv hc hdec
    simp only [Service.DecryptFields, derefOnce, decFieldsNamed, hfind,
      hset, hgv, if_neg hc, hdec, reduceIte]
  · intro fields names hbad
    constructor
    · simp only [Service.EncryptFields, derefOnce,
        encFieldsNamed_bad s names fields tape hbad]
    · simp only [Service.DecryptFields, derefOnce,
        decFieldsNamed_bad s names fields hbad]

theorem claim8_named_ignores_tag_witness :
    findField [nameField] "Name" = some nameField ∧
    fieldCanSet nameField = true ∧
    fieldVal nameField = GoVal.vStr [65, 108] ∧
    demoService.Encrypt (List.replicate 12 0) [65, 108] =
      Res.ok (b64encode (List.replicate 12 0 ++ 0 :: [65, 108]), []) ∧
    demoService.EncryptFields (GoVal.vStruct [nameField]) ["Name"]
        (List.replicate 12 0) =
      FOut.done (GoVal.vStruct (updateField [nameField] "Name"
          (b64encode (List.replicate 12 0 ++ 0 :: [65, 108])))) [] none ∧
    (demoService.EncryptFields (GoVal.vStruct [nameField]) ["Missing"]
        (List.replicate 12 0) =
      FOut.done (GoVal.vStruct [nameField]) (List.replicate 12 0) none ∧
     demoService.DecryptFields (GoVal.vStruct [nameField]) ["Missing"] =
      DOut.done (GoVal.vStruct [nameField]) none) :=
  ⟨rfl, rfl, rfl, rfl,
   (claim8_named_ignores_tag demoService (List.replicate 12 0)).1
     [nameField] "Name" nameField [65, 108] _ [] rfl rfl rfl (by decide)
     rfl,
   (claim8_named_ignores_tag demoService (List.replicate 12 0)).2.2
     [nameField] ["Missing"] (by
       intro m hm
       simp at hm
       subst hm
       exact trivial)⟩

/-- C9: the empty string and the empty byte sequence pass through every
cipher operation unchanged and without error, and in both record
transforms a selected field holding the empty string is left unchanged
with no error: in tag mode such a field passes through the loop without
contributing any error (the loop's tape and error are those of the
remaining fields alone, and on its own the field makes
`EncryptStruct`/`DecryptStruct` return `nil`). -/
theorem claim9_empty_passthrough (s : Service) (tape : List Nat) :
    s.Encrypt tape [] = Res.ok ([], tape) ∧
    s.Decrypt [] = Res.ok [] ∧
    s.EncryptBytes tape [] = Res.ok ([], tape) ∧
    s.DecryptBytes [] = Res.ok [] ∧
    (∀ (fields : List GoField) (i : Nat) (f : GoField),
       fields[i]? = some f → fieldVal f = GoVal.vStr [] →
       (structFields (s.EncryptStruct (GoVal.vStruct fields) tape).1)[i]? =
         some f ∧
       (structFields (s.DecryptStruct (GoVal.vStruct fields)).1)[i]? =
         some f ∧
       (∀ fs : List GoField,
         encFieldsTag s (f :: fs) tape =
           (f :: (encFieldsTag s fs tape).1, (encFieldsTag s fs tape).2.1,
            (encFieldsTag s fs tape).2.2) ∧
         decFieldsTag s (f :: fs) =
           (f :: (decFieldsTag s fs).1, (decFieldsTag s fs).2)) ∧
       s.EncryptStruct (GoVal.vStruct [f]) tape =
         (GoVal.vStruct [f], tape, none) ∧
       s.DecryptStruct (GoVal.vStruct [f]) = (GoVal.vStruct [f], none)) ∧
    (∀ (fields : List GoField) (n : String) (g : GoField),
       findField fields n = some g → fieldVal g = GoVal.vStr [] →
       s.EncryptFields (GoVal.vStruct fields) [n] tape =
         FOut.done (GoVal.vStruct fields) tape none ∧
       s.DecryptFields (GoVal.vStruct fields) [n] =
         DOut.done (GoVal.vStruct fields) none) := by
  refine ⟨rfl, rfl, rfl, rfl, ?_, ?_⟩
  · intro fields i f hf hv
    have hsel : tagSelected f = none :=
      tagSelected_eq_none f (Or.inr (Or.inr (Or.inr hv)))
    refine ⟨?_, ?_, fun fs => ⟨encFieldsTag_cons_skip s f fs tape hsel,
      decFieldsTag_cons_skip s f fs hsel⟩, ?_, ?_⟩
    · simpa [Service.EncryptStruct, derefOnce, structFields] using
        encFieldsTag_skip s fields tape i f hf hsel
    · simpa [Service.DecryptStruct, derefOnce, structFields] using
        decFieldsTag_skip s fields i f hf hsel
    · simp [Service.EncryptStruct, derefOnce, encFieldsTag, hsel]
    · simp [Service.DecryptStruct, derefOnce, decFieldsTag, hsel]
  · intro fields n g hfind hgv
    cases hcs : fieldCanSet g with
    | false =>
      constructor
      · simp only [Service.EncryptFields, derefOnce, encFieldsNamed,
          hfind, hcs, Bool.false_eq_true, reduceIte]
      · simp only [Service.DecryptFields, derefOnce, decFieldsNamed,
          hfind, hcs, Bool.false_eq_true, reduceIte]
    | true =>
      constructor
      · simp only [Service.EncryptFields, derefOnce, encFieldsNamed,
          hfind, hcs, hgv, reduceIte]
      · simp only [Service.DecryptFields, derefOnce, decFieldsNamed,
          hfind, hcs, hgv, reduceIte]

theorem claim9_empty_passthrough_witness :
    (([("Empty", "true", true, GoVal.vStr [])] :
        List GoField)[0]? = some ("Empty", "true", true, GoVal.vStr [])) ∧
    (structFields (demoService.EncryptStruct
        (GoVal.vStruct [("Empty", "true", true, GoVal.vStr [])])
        (List.replicate 12 0)).1)[0]? =
      some ("Empty", "true", true, GoVal.vStr []) ∧
    demoService.EncryptStruct
        (GoVal.vStruct [("Empty", "true", true, GoVal.vStr [])])
        (List.replicate 12 0) =
      (GoVal.vStruct [("Empty", "true", true, GoVal.vStr [])],
       List.replicate 12 0, none) ∧
    demoService.DecryptStruct
        (GoVal.vStruct [("Empty", "true", true, GoVal.vStr [])]) =
      (GoVal.vStruct [("Empty", "true", true, GoVal.vStr [])], none) ∧
    demoService.EncryptFields
        (GoVal.vStruct [("Empty", "true", true, GoVal.vStr [])]) ["Empty"]
        (List.replicate 12 0) =
      FOut.done (GoVal.vStruct [("Empty", "true", true, GoVal.vStr [])])
        (List.replicate 12 0) none :=
  ⟨rfl,
   ((claim9_empty_passthrough demoService (List.replicate 12 0)).2.2.2.2.1
     [("Empty", "true", true, GoVal.vStr [])] 0
     ("Empty", "true", true, GoVal.vStr []) rfl rfl).1,
   ((claim9_empty_passthrough demoService (List.replicate 12 0)).2.2.2.2.1
     [("Empty", "true", true, GoVal.vStr [])] 0
     ("Empty", "true", true, GoVal.vStr []) rfl rfl).2.2.2.1,
   ((claim9_empty_passthrough demoService (List.replicate 12 0)).2.2.2.2.1
     [("Empty", "true", true, GoVal.vStr [])] 0
     ("Empty", "true", true, GoVal.vStr []) rfl rfl).2.2.2.2,
   ((claim9_empty_passthrough demoService (List.replicate 12 0)).2.2.2.2.2
     [("Empty", "true", true, GoVal.vStr [])] "Empty"
     ("Empty", "true", true, GoVal.vStr []) rfl rfl).1⟩

/-- C10: the struct transforms guard the kind of the value — on anything
that is not a struct (after one pointer dereference) they return success
without effect — but the name-driven transforms have no such guard and
panic in `FieldByName` for every non-struct value with a non-empty name
list (with an empty name list the loop body never runs, so they return
`nil`). -/
theorem claim10_missing_guard_panics (s : Service) (tape : List Nat)
    (v : GoVal) (names : List String)
    (hv : isStructVal (derefOnce v) = false) :
    s.EncryptStruct v tape = (derefOnce v, tape, none) ∧
    s.DecryptStruct v = (derefOnce v, none) ∧
    (names ≠ [] → s.EncryptFields v names tape = FOut.panicked ∧
       s.DecryptFields v names = DOut.panicked) ∧
    (names = [] → s.EncryptFields v names tape =
         FOut.done (derefOnce v) tape none ∧
       s.DecryptFields v names = DOut.done (derefOnce v) none) := by
  cases hd : derefOnce v with
  | vStruct fields =>
    rw [hd] at hv
    simp [isStructVal] at hv
  | vStr q =>
    refine ⟨?_, ?_, fun hn => ?_, fun hn => ?_⟩
    · simp only [Service.EncryptStruct, hd]
    · simp only [Service.DecryptStruct, hd]
    · cases names with
      | nil => exact absurd rfl hn
      | cons a as =>
        exact ⟨by simp only [Service.EncryptFields, hd],
               by simp only [Service.DecryptFields, hd]⟩
    · subst hn
      exact ⟨by simp only [Service.EncryptFields, hd],
             by simp only [Service.DecryptFields, hd]⟩
  | vPtr q =>
    refine ⟨?_, ?_, fun hn => ?_, fun hn => ?_⟩
    · simp only [Service.EncryptStruct, hd]
    · simp only [Service.DecryptStruct, hd]
    · cases names with
      | nil => exact absurd rfl hn
      | cons a as =>
        exact ⟨by simp only [Service.EncryptFields, hd],
               by simp only [Service.DecryptFields, hd]⟩
    · subst hn
      exact ⟨by simp only [Service.EncryptFields, hd],
             by simp only [Service.DecryptFields, hd]⟩
  | vOther =>
    refine ⟨?_, ?_, fun hn => ?_, fun hn => ?_⟩
    · simp only [Service.EncryptStruct, hd]
    · simp only [Service.DecryptStruct, hd]
    · cases names with
      | nil => exact absurd rfl hn
      | cons a as =>
        exact ⟨by simp only [Service.EncryptFields, hd],
               by simp only [Service.DecryptFields, hd]⟩
    · subst hn
      exact ⟨by simp only [Service.EncryptFields, hd],
             by simp only [Service.DecryptFields, hd]⟩

theorem claim10_missing_guard_panics_witness :
    isStructVal (derefOnce GoVal.vOther) = false ∧
    (demoService.EncryptStruct GoVal.vOther [] =
       (derefOnce GoVal.vOther, [], none) ∧
     demoService.DecryptStruct GoVal.vOther =
       (derefOnce GoVal.vOther, none) ∧
     ((["X"] : List String) ≠ [] →
        demoService.EncryptFields GoVal.vOther ["X"] [] = FOut.panicked ∧
        demoService.DecryptFields GoVal.vOther ["X"] = DOut.panicked) ∧
     ((["X"] : List String) = [] →
        demoService.EncryptFields GoVal.vOther ["X"] [] =
          FOut.done (derefOnce GoVal.vOther) [] none ∧
        demoService.DecryptFields GoVal.vOther ["X"] =
          DOut.done (derefOnce GoVal.vOther) none)) :=
  ⟨rfl, claim10_missing_guard_panics demoService [] GoVal.vOther ["X"] rfl⟩

end AsteroGo
